import Mathlib

/-
  Verification of the fr-jboard ingestion-and-enrichment pipeline
  (src/app.js) against its natural-language specification.

  The JavaScript source is shallowly embedded: pure string routines become
  Lean functions over List Char / String, the SQLite statements become
  functions over an in-memory list of rows, and the event/promise wiring of
  the feed run becomes explicit state passing over event lists.  External
  library calls (the html-to-text `convert`, `JSON.parse`) are abstracted as
  function parameters, since no claim depends on their internals.
-/

namespace JB

/-! ## Character-level helpers (JS string primitives)

`lowerChar` models the effect of JavaScript `toLowerCase()` on the ASCII
range (the only range the pipeline's keyword vocabulary and delimiters use);
non-ASCII characters are left unchanged.  `isWS` models the whitespace class
used by `trim()` and `\s`. -/

def lowerChar (c : Char) : Char :=
  match c with
  | 'A' => 'a' | 'B' => 'b' | 'C' => 'c' | 'D' => 'd' | 'E' => 'e' | 'F' => 'f'
  | 'G' => 'g' | 'H' => 'h' | 'I' => 'i' | 'J' => 'j' | 'K' => 'k' | 'L' => 'l'
  | 'M' => 'm' | 'N' => 'n' | 'O' => 'o' | 'P' => 'p' | 'Q' => 'q' | 'R' => 'r'
  | 'S' => 's' | 'T' => 't' | 'U' => 'u' | 'V' => 'v' | 'W' => 'w' | 'X' => 'x'
  | 'Y' => 'y' | 'Z' => 'z'
  | c => c

def isWS (c : Char) : Bool := c.isWhitespace

def jsToLower (s : String) : String := String.mk (s.data.map lowerChar)

def trimChars (l : List Char) : List Char :=
  ((l.dropWhile isWS).reverse.dropWhile isWS).reverse

def jsTrim (s : String) : String := String.mk (trimChars s.data)

set_option maxHeartbeats 1000000 in
theorem lowerChar_cases (c : Char) :
    lowerChar c = c ∨ lowerChar c ∈
      ['a','b','c','d','e','f','g','h','i','j','k','l','m',
       'n','o','p','q','r','s','t','u','v','w','x','y','z'] := by
  unfold lowerChar
  split <;> first | (left; rfl) | (right; decide)

set_option maxHeartbeats 1000000 in
theorem lowerChar_lowerChar (c : Char) :
    lowerChar (lowerChar c) = lowerChar c := by
  rcases lowerChar_cases c with h | h
  · rw [h, h]
  · simp only [List.mem_cons, List.not_mem_nil, or_false] at h
    rcases h with h|h|h|h|h|h|h|h|h|h|h|h|h|h|h|h|h|h|h|h|h|h|h|h|h|h <;>
      rw [h] <;> decide

set_option maxHeartbeats 1000000 in
theorem isWS_lowerChar (c : Char) : isWS (lowerChar c) = isWS c := by
  unfold lowerChar
  split <;> rfl

theorem dropWhile_dropWhile (p : Char → Bool) (l : List Char) :
    List.dropWhile p (List.dropWhile p l) = List.dropWhile p l := by
  induction l with
  | nil => rfl
  | cons a l ih => by_cases h : p a <;> simp [List.dropWhile_cons, h, ih]

theorem dropWhile_map_comm (f : Char → Char) (p : Char → Bool)
    (h : ∀ c, p (f c) = p c) (l : List Char) :
    List.dropWhile p (l.map f) = (List.dropWhile p l).map f := by
  induction l with
  | nil => rfl
  | cons a l ih =>
      by_cases ha : p a <;> simp [List.dropWhile_cons, h a, ha, ih]

theorem head?_dropWhile (p : Char → Bool) (l : List Char) (a : Char)
    (h : (List.dropWhile p l).head? = some a) : p a = false := by
  induction l with
  | nil => simp [List.dropWhile] at h
  | cons b l ih =>
      by_cases hb : p b
      · rw [List.dropWhile_cons, if_pos hb] at h; exact ih h
      · rw [List.dropWhile_cons, if_neg hb] at h
        simp only [List.head?_cons, Option.some.injEq] at h
        rw [← h]; simpa using hb

theorem dropWhile_eq_self_of_head (p : Char → Bool) (l : List Char)
    (h : ∀ a, l.head? = some a → p a = false) : List.dropWhile p l = l := by
  cases l with
  | nil => rfl
  | cons a l =>
      have := h a (by rfl)
      simp [List.dropWhile_cons, this]

theorem getLast?_dropWhile (p : Char → Bool) (l : List Char)
    (h : List.dropWhile p l ≠ []) :
    (List.dropWhile p l).getLast? = l.getLast? := by
  induction l with
  | nil => simp [List.dropWhile] at h
  | cons a l ih =>
      by_cases ha : p a
      · have hne : List.dropWhile p l ≠ [] := by
          simpa [List.dropWhile_cons, ha] using h
        have hl : l ≠ [] := by
          intro hnil; rw [hnil] at hne; exact hne rfl
        rw [List.dropWhile_cons]
        simp only [ha, if_true]
        rw [ih hne]
        cases l with
        | nil => exact absurd rfl hl
        | cons b t => rw [List.getLast?_cons_cons]
      · simp [List.dropWhile_cons, ha]

theorem trimChars_trimChars (l : List Char) :
    trimChars (trimChars l) = trimChars l := by
  unfold trimChars
  set m := List.dropWhile isWS l with hm
  set r := List.dropWhile isWS m.reverse with hr
  -- first: dropping leading whitespace from r.reverse is a no-op,
  -- because the last element of r is the last element of m.reverse,
  -- i.e. the head of m, which is not whitespace.
  have hstep : List.dropWhile isWS r.reverse = r.reverse := by
    apply dropWhile_eq_self_of_head
    intro a ha
    rcases List.eq_nil_or_concat r with hnil | ⟨r', b, hconc⟩
    · rw [hnil] at ha; simp at ha
    · have hrne : r ≠ [] := by rw [hconc]; simp
      have hlast : r.getLast? = m.reverse.getLast? := getLast?_dropWhile _ _ hrne
      have hmne : m.reverse ≠ [] := by
        intro hnil; rw [hr, hnil] at hrne; exact hrne rfl
      have hmne' : m ≠ [] := by
        intro hnil; rw [hnil] at hmne; exact hmne rfl
      -- head of r.reverse is getLast of r
      have hha : r.getLast? = some a := by
        rwa [← List.head?_reverse]
      rw [hlast] at hha
      rw [List.getLast?_reverse] at hha
      exact head?_dropWhile isWS l a (by rw [← hm]; exact hha)
  rw [hstep, List.reverse_reverse, hr, dropWhile_dropWhile]

theorem trimChars_map_lower (l : List Char) :
    trimChars (l.map lowerChar) = (trimChars l).map lowerChar := by
  unfold trimChars
  rw [dropWhile_map_comm lowerChar isWS isWS_lowerChar,
      ← List.map_reverse, dropWhile_map_comm lowerChar isWS isWS_lowerChar,
      ← List.map_reverse]

/-! ## Tag normalization (src/app.js lines 202-214, `uniqNormTags`)

The JS loop walks the tag list, skips falsy entries, trims and lowercases,
skips entries that trimmed to the empty string or were already seen, and
finally truncates to the first 8 survivors. -/

def normTag (t : String) : String := jsToLower (jsTrim t)

def uniqNormTagsGo (seen acc : List String) : List String → List String
  | [] => acc
  | t :: ts =>
      if t = "" then uniqNormTagsGo seen acc ts
      else
        let t1 := normTag t
        if t1 = "" then uniqNormTagsGo seen acc ts
        else if t1 ∈ seen then uniqNormTagsGo seen acc ts
        else uniqNormTagsGo (t1 :: seen) (acc ++ [t1]) ts

def uniqNormTags (tags : List String) : List String :=
  (uniqNormTagsGo [] [] tags).take 8

/-- Reference function, modelled from the spec (section 4.4): keep the first
occurrence of each element, dropping later duplicates. -/
def dedupFirstAux (seen : List String) : List String → List String
  | [] => []
  | a :: l =>
      if a ∈ seen then dedupFirstAux seen l
      else a :: dedupFirstAux (a :: seen) l

/-- Reference function, modelled from the spec (section 4.4): trim,
lowercase, drop empties, remove exact duplicates preserving first-seen
order, truncate to the first 8 survivors. -/
def normalizeSpec (tags : List String) : List String :=
  (dedupFirstAux [] ((tags.map normTag).filter (fun s => s ≠ ""))).take 8

theorem normTag_empty : normTag "" = "" := rfl

theorem uniqNormTagsGo_eq (ts : List String) :
    ∀ seen acc, uniqNormTagsGo seen acc ts =
      acc ++ dedupFirstAux seen ((ts.map normTag).filter (fun s => s ≠ "")) := by
  induction ts with
  | nil => intro seen acc; simp [uniqNormTagsGo, dedupFirstAux]
  | cons t ts ih =>
      intro seen acc
      by_cases ht : t = ""
      · subst ht
        simp only [uniqNormTagsGo, if_true, List.map_cons, normTag_empty,
          List.filter_cons]
        simp [ih]
      · simp only [uniqNormTagsGo, ht, if_false, List.map_cons, List.filter_cons]
        by_cases h1 : normTag t = ""
        · simp only [h1, if_true]
          simp [ih, h1]
        · simp only [h1, if_false]
          by_cases h2 : normTag t ∈ seen
          · simp only [h2, if_true]
            have : (decide (¬normTag t = "")) = true := by simp [h1]
            simp [this, dedupFirstAux, h2, ih]
          · simp only [h2, if_false]
            have : (decide (¬normTag t = "")) = true := by simp [h1]
            simp only [this, if_true]
            rw [ih, List.append_assoc]
            simp [dedupFirstAux, h2]

theorem mem_dedupFirstAux {x : String} :
    ∀ (l seen : List String), x ∈ dedupFirstAux seen l → x ∈ l ∧ x ∉ seen := by
  intro l
  induction l with
  | nil => intro seen h; simp [dedupFirstAux] at h
  | cons a l ih =>
      intro seen h
      by_cases ha : a ∈ seen
      · rw [dedupFirstAux, if_pos ha] at h
        obtain ⟨h1, h2⟩ := ih seen h
        exact ⟨List.mem_cons_of_mem _ h1, h2⟩
      · rw [dedupFirstAux, if_neg ha] at h
        rcases List.mem_cons.mp h with rfl | h
        · exact ⟨List.mem_cons_self _ _, ha⟩
        · obtain ⟨h1, h2⟩ := ih _ h
          have hxa : x ≠ a := by
            intro hx; exact h2 (hx ▸ List.mem_cons_self _ _)
          exact ⟨List.mem_cons_of_mem _ h1,
            fun hs => h2 (List.mem_cons_of_mem _ hs)⟩

theorem dedupFirstAux_sublist :
    ∀ (l seen : List String), List.Sublist (dedupFirstAux seen l) l := by
  intro l
  induction l with
  | nil => intro seen; simp [dedupFirstAux]
  | cons a l ih =>
      intro seen
      by_cases ha : a ∈ seen
      · rw [dedupFirstAux, if_pos ha]
        exact (ih seen).trans (List.sublist_cons_self _ _)
      · rw [dedupFirstAux, if_neg ha]
        exact (ih (a :: seen)).cons₂ a

theorem dedupFirstAux_nodup :
    ∀ (l seen : List String), (dedupFirstAux seen l).Nodup := by
  intro l
  induction l with
  | nil => intro seen; simp [dedupFirstAux]
  | cons a l ih =>
      intro seen
      by_cases ha : a ∈ seen
      · rw [dedupFirstAux, if_pos ha]; exact ih seen
      · rw [dedupFirstAux, if_neg ha]
        refine List.nodup_cons.mpr ⟨?_, ih _⟩
        intro hmem
        exact (mem_dedupFirstAux _ _ hmem).2 (List.mem_cons_self _ _)

theorem dedupFirstAux_eq_self :
    ∀ (l seen : List String), l.Nodup → (∀ x ∈ l, x ∉ seen) →
      dedupFirstAux seen l = l := by
  intro l
  induction l with
  | nil => intro seen _ _; rfl
  | cons a l ih =>
      intro seen hnd hs
      have ha : a ∉ seen := hs a (List.mem_cons_self _ _)
      rw [dedupFirstAux, if_neg ha]
      congr 1
      apply ih _ (List.nodup_cons.mp hnd).2
      intro x hx
      have hxs : x ∉ seen := hs x (List.mem_cons_of_mem _ hx)
      have hxa : x ≠ a := by
        intro h; exact (List.nodup_cons.mp hnd).1 (h ▸ hx)
      simp [List.mem_cons, hxa, hxs]

/-- C5: for any input tag list, `uniqNormTags` returns at most 8 entries,
each the trim-and-lowercase normalization of some input entry, with empty
strings dropped and exact duplicates removed preserving first-seen order,
truncated to the first 8 survivors (equality with the spec-side
`normalizeSpec` captures the order/duplicate/truncation clause exactly). -/
theorem uniqNormTags_spec (ts : List String) :
    uniqNormTags ts = normalizeSpec ts
    ∧ (uniqNormTags ts).length ≤ 8
    ∧ (uniqNormTags ts).Nodup
    ∧ (∀ x ∈ uniqNormTags ts, x ≠ "" ∧ ∃ t ∈ ts, x = normTag t) := by
  have hgo := uniqNormTagsGo_eq ts [] []
  have heq : uniqNormTags ts = normalizeSpec ts := by
    rw [uniqNormTags, normalizeSpec, hgo, List.nil_append]
  refine ⟨heq, ?_, ?_, ?_⟩
  · rw [uniqNormTags]
    exact (List.length_take _ _).trans_le (min_le_left _ _)
  · rw [heq, normalizeSpec]
    exact (List.take_sublist _ _).nodup (dedupFirstAux_nodup _ _)
  · intro x hx
    rw [heq, normalizeSpec] at hx
    have hx1 := (List.take_sublist _ _).mem hx
    have hx2 := (mem_dedupFirstAux _ _ hx1).1
    have hx3 := List.of_mem_filter hx2
    have hx4 := List.mem_of_mem_filter hx2
    obtain ⟨t, ht, rfl⟩ := List.mem_map.mp hx4
    exact ⟨by simpa using hx3, t, ht, rfl⟩

theorem normTag_normTag (t : String) : normTag (normTag t) = normTag t := by
  apply String.ext
  show List.map lowerChar (trimChars (List.map lowerChar (trimChars t.data)))
      = List.map lowerChar (trimChars t.data)
  rw [trimChars_map_lower, trimChars_trimChars, List.map_map]
  congr 1
  funext c
  exact lowerChar_lowerChar c

/-- C9: tag normalization is idempotent: applying `uniqNormTags` to its own
output returns that output unchanged. -/
theorem uniqNormTags_idem (ts : List String) :
    uniqNormTags (uniqNormTags ts) = uniqNormTags ts := by
  obtain ⟨_, hlen, hnd, hmem⟩ := uniqNormTags_spec ts
  set out := uniqNormTags ts with hout
  have hmap : out.map normTag = out := by
    apply List.map_congr_left ?_ |>.trans (List.map_id _)
    intro x hx
    obtain ⟨-, t, -, rfl⟩ := hmem x hx
    exact normTag_normTag t
  have hfil : out.filter (fun s => s ≠ "") = out := by
    apply List.filter_eq_self.mpr
    intro x hx
    simpa using (hmem x hx).1
  rw [uniqNormTags, uniqNormTagsGo_eq, List.nil_append, hmap, hfil,
      dedupFirstAux_eq_self out [] hnd (by simp)]
  exact List.take_of_length_le hlen

/-! ## The jobs store (src/app.js: table `jobs`, lines 46-63)

Only the two columns that the ordering-sensitive claims depend on are
modelled: `published_at` (`pub`) and the autoincrement primary key `id`.
Every SQL query relevant to the claims orders by
`published_at DESC, id DESC`. -/

structure Job where
  id : Int
  pub : Int
  deriving Repr, DecidableEq

/-- Non-strict descending key order used by ORDER BY published_at DESC, id DESC:
`keyGe a b` means row `a` sorts no later than row `b`. -/
def keyGe (a b : Job) : Prop := b.pub < a.pub ∨ (b.pub = a.pub ∧ b.id ≤ a.id)

/-- Strict version of `keyGe`. -/
def keyGt (a b : Job) : Prop := b.pub < a.pub ∨ (b.pub = a.pub ∧ b.id < a.id)

instance : DecidableRel keyGe := fun a b => by unfold keyGe; infer_instance

instance : DecidableRel keyGt := fun a b => by unfold keyGt; infer_instance

instance : IsTotal Job keyGe := ⟨by intro a b; unfold keyGe; omega⟩

instance : IsTrans Job keyGe := ⟨by intro a b c; unfold keyGe; omega⟩

/-- The ORDER BY published_at DESC, id DESC result order. -/
def sortJobs (rows : List Job) : List Job := List.insertionSort keyGe rows

def idsNodup (rows : List Job) : Prop := (rows.map Job.id).Nodup

instance : DecidablePred idsNodup := fun rows => by unfold idsNodup; infer_instance

theorem keyGt_asymm {a b : Job} (h : keyGt a b) : ¬ keyGt b a := by
  unfold keyGt at *; omega

theorem keyGt_irrefl (a : Job) : ¬ keyGt a a := by unfold keyGt; omega

theorem keyGt_of_keyGe {a b : Job} (h : keyGe a b) (hne : a.id ≠ b.id) :
    keyGt a b := by
  unfold keyGe at h; unfold keyGt; omega

theorem sortJobs_perm (rows : List Job) : List.Perm (sortJobs rows) rows :=
  List.perm_insertionSort keyGe rows

theorem sortJobs_length (rows : List Job) : (sortJobs rows).length = rows.length :=
  (sortJobs_perm rows).length_eq

theorem sortJobs_pairwise (rows : List Job) (hnd : idsNodup rows) :
    List.Pairwise keyGt (sortJobs rows) := by
  have hsorted : List.Pairwise keyGe (sortJobs rows) :=
    List.sorted_insertionSort keyGe rows
  have hndL : ((sortJobs rows).map Job.id).Nodup :=
    (((sortJobs_perm rows).map Job.id).nodup_iff).mpr hnd
  have hne : List.Pairwise (fun a b : Job => a.id ≠ b.id) (sortJobs rows) :=
    List.pairwise_map.mp hndL
  exact (hsorted.and hne).imp (fun h => keyGt_of_keyGe h.1 h.2)

theorem strictSorted_unique :
    ∀ (l₁ l₂ : List Job), List.Perm l₁ l₂ →
      List.Pairwise keyGt l₁ → List.Pairwise keyGt l₂ → l₁ = l₂ := by
  intro l₁
  induction l₁ with
  | nil => intro l₂ hp _ _; exact (hp.nil_eq).symm ▸ rfl
  | cons a t₁ ih =>
      intro l₂ hp h1 h2
      cases l₂ with
      | nil => exact absurd hp.symm.nil_eq (by simp)
      | cons b t₂ =>
          have hab : a = b := by
            by_contra hne
            have ha : a ∈ b :: t₂ := hp.mem_iff.mp (List.mem_cons_self _ _)
            have ha2 : a ∈ t₂ := by
              rcases List.mem_cons.mp ha with h | h
              · exact absurd h hne
              · exact h
            have hba : keyGt b a := (List.pairwise_cons.mp h2).1 a ha2
            have hb : b ∈ a :: t₁ := hp.symm.mem_iff.mp (List.mem_cons_self _ _)
            have hb2 : b ∈ t₁ := by
              rcases List.mem_cons.mp hb with h | h
              · exact absurd h.symm hne
              · exact h
            have hab2 : keyGt a b := (List.pairwise_cons.mp h1).1 b hb2
            exact keyGt_asymm hab2 hba
          subst hab
          have htails : List.Perm t₁ t₂ := hp.cons_inv
          rw [ih t₂ htails (List.pairwise_cons.mp h1).2 (List.pairwise_cons.mp h2).2]

/-! ## Retention pruning (src/app.js lines 179-186 `stmtDeleteOld` and 697-702)

`stmtDeleteOld` deletes every row beyond the first MAX rows in
(published_at DESC, id DESC) order; afterwards the run writes MAX into the
count cache directly.  `getCachedCount(0)` forces a fresh COUNT(*) (and
stores it) because the cache row never satisfies `updated_at > now`. -/

def pruneJobs (rows : List Job) (m : Nat) : List Job :=
  let doomed := ((sortJobs rows).drop m).map Job.id
  rows.filter (fun r => decide (r.id ∉ doomed))

/-- One retention pass at the end of a run: recount, and if the total
exceeds the maximum, delete the rows beyond the first `m` in descending
order and set the count cache to `m` without recounting.  Returns the
surviving rows and the cached count. -/
def retentionStep (rows : List Job) (m : Nat) : List Job × Nat :=
  let total := rows.length
  if m < total then (pruneJobs rows m, m) else (rows, total)

theorem pruneJobs_perm (rows : List Job) (m : Nat) (hnd : idsNodup rows) :
    List.Perm (pruneJobs rows m) ((sortJobs rows).take m) := by
  classical
  set L := sortJobs rows with hL
  set doomed := (L.drop m).map Job.id with hdoomed
  have hLsplit : L = L.take m ++ L.drop m := (List.take_append_drop m L).symm
  have hmapnd : (L.map Job.id).Nodup :=
    (((sortJobs_perm rows).map Job.id).nodup_iff).mpr hnd
  have hdisj : ∀ x ∈ (L.take m).map Job.id, x ∉ doomed := by
    have : ((L.take m).map Job.id ++ (L.drop m).map Job.id).Nodup := by
      rw [← List.map_append, ← hLsplit]; exact hmapnd
    intro x hx
    exact List.disjoint_of_nodup_append this hx
  have hperm1 : List.Perm (pruneJobs rows m)
      (L.filter (fun r => decide (r.id ∉ doomed))) := by
    exact List.Perm.filter _ (sortJobs_perm rows).symm
  have hfk : (L.take m).filter (fun r => decide (r.id ∉ doomed)) = L.take m := by
    apply List.filter_eq_self.mpr
    intro r hr
    simp only [decide_eq_true_eq]
    exact hdisj r.id (List.mem_map_of_mem Job.id hr)
  have hfd : (L.drop m).filter (fun r => decide (r.id ∉ doomed)) = [] := by
    apply List.filter_eq_nil_iff.mpr
    intro r hr
    simp only [decide_eq_true_eq, not_not]
    exact List.mem_map_of_mem Job.id hr
  calc List.Perm (pruneJobs rows m) (L.filter (fun r => decide (r.id ∉ doomed))) := hperm1
    _ = L.take m := by
        conv_lhs => rw [hLsplit]
        rw [List.filter_append, hfk, hfd, List.append_nil]

theorem mem_take_of_mem_prune {rows : List Job} {m : Nat} (hnd : idsNodup rows)
    {a : Job} (ha : a ∈ pruneJobs rows m) : a ∈ (sortJobs rows).take m :=
  ((pruneJobs_perm rows m hnd).mem_iff).mp ha

/-- C3: with the count `rows.length` exceeding the configured maximum `m`,
the retention pass leaves exactly `m` rows; the survivors are exactly the
first `m` rows in descending (published_at, id) order — in particular every
surviving row strictly dominates every deleted row in that order — and the
count cache is set to `m` directly. -/
theorem retention_spec (rows : List Job) (m : Nat)
    (hnd : idsNodup rows) (hm : m < rows.length) :
    (retentionStep rows m).1.length = m
    ∧ List.Perm (retentionStep rows m).1 ((sortJobs rows).take m)
    ∧ (∀ a ∈ (retentionStep rows m).1, ∀ b ∈ rows,
        b ∉ (retentionStep rows m).1 → keyGt a b)
    ∧ (retentionStep rows m).2 = m := by
  have hstep1 : (retentionStep rows m).1 = pruneJobs rows m := by
    rw [retentionStep, if_pos hm]
  have hstep2 : (retentionStep rows m).2 = m := by
    rw [retentionStep, if_pos hm]
  have hperm : List.Perm (retentionStep rows m).1 ((sortJobs rows).take m) :=
    hstep1 ▸ pruneJobs_perm rows m hnd
  refine ⟨?_, hperm, ?_, hstep2⟩
  · rw [hperm.length_eq, List.length_take, sortJobs_length]
    omega
  · intro a ha b hb hbnot
    have haK : a ∈ (sortJobs rows).take m := hperm.mem_iff.mp ha
    have hbL : b ∈ sortJobs rows := (sortJobs_perm rows).mem_iff.mpr hb
    have hbD : b ∈ (sortJobs rows).drop m := by
      rcases (List.mem_append.mp
        ((List.take_append_drop m (sortJobs rows)) ▸ hbL)) with h | h
      · exact absurd (hperm.mem_iff.mpr h) hbnot
      · exact h
    have hpw := sortJobs_pairwise rows hnd
    have hsplit := (List.take_append_drop m (sortJobs rows)).symm
    rw [hsplit] at hpw
    exact ((List.pairwise_append.mp hpw).2.2) a haK b hbD

/-- Witness for C3 at a concrete store: three rows with publication times
3,2,1 and maximum 2; the rows at times 3 and 2 survive and the cache reads 2
(the scenario of spec section 8). -/
theorem retention_spec_witness :
    (retentionStep [⟨1, 1⟩, ⟨2, 2⟩, ⟨3, 3⟩] 2).1.length = 2
    ∧ List.Perm (retentionStep [⟨1, 1⟩, ⟨2, 2⟩, ⟨3, 3⟩] 2).1
        ((sortJobs [⟨1, 1⟩, ⟨2, 2⟩, ⟨3, 3⟩]).take 2)
    ∧ (∀ a ∈ (retentionStep [⟨1, 1⟩, ⟨2, 2⟩, ⟨3, 3⟩] 2).1,
        ∀ b ∈ [(⟨1, 1⟩ : Job), ⟨2, 2⟩, ⟨3, 3⟩],
          b ∉ (retentionStep [⟨1, 1⟩, ⟨2, 2⟩, ⟨3, 3⟩] 2).1 → keyGt a b)
    ∧ (retentionStep [⟨1, 1⟩, ⟨2, 2⟩, ⟨3, 3⟩] 2).2 = 2 :=
  retention_spec [⟨1, 1⟩, ⟨2, 2⟩, ⟨3, 3⟩] 2 (by decide) (by decide)

/-! ## Keyset pagination (src/app.js lines 100-112 and the route at 903-916)

`stmtPageFirst` returns the first `n` rows in descending (published_at, id)
order; `stmtPageCursor` filters rows strictly below the cursor pair in that
order and returns the first `n` of them.  The route builds the next cursor
from the last row of a full page, serializes it as the string
published_at-id, and on the next request parses it with
cursor.split('-').map(Number), rejecting it (HTTP 400) when either
component is falsy — so a cursor with published_at = 0 (and any cursor that
mis-splits, e.g. a negative published_at) ends the scan.  `cursorOk` models
exactly that integer-level acceptance condition. -/

def cpred (c : Int × Int) (r : Job) : Prop :=
  r.pub < c.1 ∨ (r.pub = c.1 ∧ r.id < c.2)

instance (c : Int × Int) : DecidablePred (cpred c) := fun r => by
  unfold cpred; infer_instance

def pageFirst (rows : List Job) (n : Nat) : List Job :=
  (sortJobs rows).take n

def pageCursor (rows : List Job) (c : Int × Int) (n : Nat) : List Job :=
  (sortJobs (rows.filter (fun r => decide (cpred c r)))).take n

def cursorOk (c : Int × Int) : Bool := decide (0 < c.1) && decide (0 < c.2)

/-- The page served for a given request: the cursorless first page, the
cursor page when the cursor passes the route's validity check, and nothing
(HTTP 400) otherwise. -/
def pageFor (rows : List Job) (n : Nat) : Option (Int × Int) → List Job
  | none => pageFirst rows n
  | some cur => if cursorOk cur then pageCursor rows cur n else []

/-- One full client-driven scan: fetch the first page; while a page comes
back full (length = page size), follow the cursor built from its last row;
concatenate everything received.  `fuel` bounds the number of requests. -/
def scanAux (rows : List Job) (n : Nat) : Nat → Option (Int × Int) → List Job
  | 0, _ => []
  | fuel+1, c =>
      let page := pageFor rows n c
      if page.length = n then
        match page.getLast? with
        | some lastRow => page ++ scanAux rows n fuel (some (lastRow.pub, lastRow.id))
        | none => page
      else page

def scanPages (rows : List Job) (n fuel : Nat) : List Job :=
  scanAux rows n fuel none

theorem idsNodup_filter (rows : List Job) (p : Job → Bool) (hnd : idsNodup rows) :
    idsNodup (rows.filter p) :=
  List.Nodup.sublist (List.Sublist.map Job.id (List.filter_sublist rows)) hnd

theorem sort_filter_comm (rows : List Job) (p : Job → Bool) (hnd : idsNodup rows) :
    sortJobs (rows.filter p) = (sortJobs rows).filter p := by
  apply strictSorted_unique
  · exact (sortJobs_perm _).trans (List.Perm.filter p (sortJobs_perm rows).symm)
  · exact sortJobs_pairwise _ (idsNodup_filter rows p hnd)
  · exact List.Pairwise.sublist (List.filter_sublist _) (sortJobs_pairwise rows hnd)

theorem filter_keyGt_suffix (C rest : List Job) (x : Job)
    (hpw : List.Pairwise keyGt (C ++ x :: rest)) :
    (C ++ x :: rest).filter (fun r => decide (keyGt x r)) = rest := by
  obtain ⟨hC, hxr, hcross⟩ := List.pairwise_append.mp hpw
  obtain ⟨hxall, hrest⟩ := List.pairwise_cons.mp hxr
  rw [List.filter_append, List.filter_cons]
  have h1 : C.filter (fun r => decide (keyGt x r)) = [] := by
    apply List.filter_eq_nil_iff.mpr
    intro c hc
    simp only [decide_eq_true_eq]
    exact keyGt_asymm (hcross c hc x (List.mem_cons_self _ _))
  have h2 : (decide (keyGt x x)) = false := by
    simp [keyGt_irrefl x]
  have h3 : rest.filter (fun r => decide (keyGt x r)) = rest := by
    apply List.filter_eq_self.mpr
    intro r hr
    simp only [decide_eq_true_eq]
    exact hxall r hr
  rw [h1, h2, h3]
  simp

theorem cpred_decide_eq (x : Job) :
    (fun r => decide (cpred (x.pub, x.id) r)) = (fun r => decide (keyGt x r)) := by
  funext r
  rw [decide_eq_decide]
  exact Iff.rfl

theorem scanAux_cursor (rows : List Job) (n : Nat) (hn : 0 < n)
    (hnd : idsNodup rows)
    (hpub : ∀ r ∈ rows, 0 < r.pub) (hid : ∀ r ∈ rows, 0 < r.id) :
    ∀ (fuel : Nat) (C rest : List Job) (x : Job),
      sortJobs rows = C ++ x :: rest → rest.length < fuel →
      scanAux rows n fuel (some (x.pub, x.id)) = rest := by
  intro fuel
  induction fuel with
  | zero => intro C rest x _ h; omega
  | succ f ih =>
      intro C rest x hsplit hlen
      have hxrows : x ∈ rows := by
        have hx : x ∈ sortJobs rows := by rw [hsplit]; simp
        exact (sortJobs_perm rows).mem_iff.mp hx
      have hok : cursorOk (x.pub, x.id) = true := by
        simp only [cursorOk, Bool.and_eq_true, decide_eq_true_eq]
        exact ⟨hpub x hxrows, hid x hxrows⟩
      have hpage : pageCursor rows (x.pub, x.id) n = rest.take n := by
        rw [pageCursor, cpred_decide_eq, sort_filter_comm rows _ hnd, hsplit,
            filter_keyGt_suffix C rest x (hsplit ▸ sortJobs_pairwise rows hnd)]
      simp only [scanAux, pageFor, hok, if_true, hpage]
      by_cases hge : n ≤ rest.length
      · have hplen : (rest.take n).length = n := by
          rw [List.length_take]; omega
        have hne : rest.take n ≠ [] := by
          intro h0; rw [h0] at hplen; simp at hplen; omega
        rcases List.eq_nil_or_concat (rest.take n) with h0 | ⟨q, y, hqy⟩
        · exact absurd h0 hne
        · rw [List.concat_eq_append] at hqy
          have hrsplit : sortJobs rows = (C ++ x :: q) ++ y :: rest.drop n := by
            rw [hsplit]
            conv_lhs => rw [← List.take_append_drop n rest, hqy]
            simp
          have hy : scanAux rows n f (some (y.pub, y.id)) = rest.drop n := by
            apply ih (C ++ x :: q) (rest.drop n) y hrsplit
            rw [List.length_drop]; omega
          rw [hplen, if_pos rfl, hqy, List.getLast?_concat]
          simp only [← hqy, hy]
          exact List.take_append_drop n rest
      · have htake : rest.take n = rest :=
          List.take_of_length_le (by omega)
        rw [htake, if_neg (by omega)]

/-- C4 (amended): over any store state in which every row has a positive
published_at and a positive id (the id is an autoincrement key, so it is
always positive; published_at may in principle be 0 or negative, which is
what forces the amendment), the full keyset scan returns exactly the rows
in strictly descending (published_at, id) order: it equals the sorted
listing, it is a permutation of the store (every posting exactly once), and
it is strictly descending. -/
theorem keysetScan_amended (rows : List Job) (n fuel : Nat) (hn : 0 < n)
    (hnd : idsNodup rows) (hpub : ∀ r ∈ rows, 0 < r.pub)
    (hid : ∀ r ∈ rows, 0 < r.id) (hfuel : rows.length < fuel) :
    scanPages rows n fuel = sortJobs rows
    ∧ List.Perm (scanPages rows n fuel) rows
    ∧ List.Pairwise keyGt (scanPages rows n fuel) := by
  have hmain : scanPages rows n fuel = sortJobs rows := by
    cases fuel with
    | zero => omega
    | succ f =>
        rw [scanPages]
        simp only [scanAux, pageFor, pageFirst]
        have hlen : (sortJobs rows).length = rows.length := sortJobs_length rows
        by_cases hge : n ≤ (sortJobs rows).length
        · have hplen : ((sortJobs rows).take n).length = n := by
            rw [List.length_take]; omega
          have hne : (sortJobs rows).take n ≠ [] := by
            intro h0; rw [h0] at hplen; simp at hplen; omega
          rcases List.eq_nil_or_concat ((sortJobs rows).take n) with h0 | ⟨q, y, hqy⟩
          · exact absurd h0 hne
          · rw [List.concat_eq_append] at hqy
            have hLsplit : sortJobs rows = q ++ y :: (sortJobs rows).drop n := by
              conv_lhs => rw [← List.take_append_drop n (sortJobs rows), hqy]
              simp
            have hy : scanAux rows n f (some (y.pub, y.id)) = (sortJobs rows).drop n := by
              apply scanAux_cursor rows n hn hnd hpub hid f q _ y hLsplit
              rw [List.length_drop]; omega
            rw [hplen, if_pos rfl, hqy, List.getLast?_concat]
            simp only [← hqy, hy]
            exact List.take_append_drop n (sortJobs rows)
        · have htake : (sortJobs rows).take n = sortJobs rows :=
            List.take_of_length_le (by omega)
          rw [htake, if_neg (by omega)]
  refine ⟨hmain, ?_, ?_⟩
  · rw [hmain]; exact sortJobs_perm rows
  · rw [hmain]; exact sortJobs_pairwise rows hnd

/-- Witness for C4 (amended) at a concrete store: three rows scanned with
page size 2 come back as the full descending listing, a permutation of the
store, strictly descending. -/
theorem keysetScan_amended_witness :
    scanPages [⟨1, 5⟩, ⟨3, 9⟩, ⟨2, 7⟩] 2 4 = sortJobs [⟨1, 5⟩, ⟨3, 9⟩, ⟨2, 7⟩]
    ∧ List.Perm (scanPages [⟨1, 5⟩, ⟨3, 9⟩, ⟨2, 7⟩] 2 4) [⟨1, 5⟩, ⟨3, 9⟩, ⟨2, 7⟩]
    ∧ List.Pairwise keyGt (scanPages [⟨1, 5⟩, ⟨3, 9⟩, ⟨2, 7⟩] 2 4) :=
  keysetScan_amended [⟨1, 5⟩, ⟨3, 9⟩, ⟨2, 7⟩] 2 4 (by decide) (by decide)
    (by decide) (by decide) (by decide)

/-- A store of 51 rows (distinct positive ids, so a legitimate table state)
in which the 50th row of the descending listing has published_at = 0: the
first page of 50 ends on that row, so the next cursor is 0-2, which the
route rejects as invalid (`!pub` is true for 0). -/
def cexRows : List Job :=
  ((List.range 49).map (fun i => ⟨Int.ofNat i + 3, Int.ofNat (100 - i)⟩)) ++
    [⟨2, 0⟩, ⟨1, 0⟩]

/-- Counterexample to C4 as stated: on the store `cexRows` the full keyset
scan (page size 50, the route's constant) misses the stored posting with
id 1, because the cursor built from the 50th row has published_at = 0 and
is rejected by the route's falsy-component check. -/
theorem keysetScan_claim_cex :
    idsNodup cexRows
    ∧ (⟨1, 0⟩ : Job) ∈ cexRows
    ∧ (⟨1, 0⟩ : Job) ∉ scanPages cexRows 50 60 := by
  constructor
  · decide
  constructor
  · decide
  · decide

/-! ## Raw record accumulation (src/app.js lines 570-631, closetag handler)

Inside one job/item record element, each closing child tag stores its
(trimmed) accumulated text into the current record according to the
lowercased tag name; guid/referencenumber assign only while the current
identity is still empty, every other recognized field is overwritten on
each occurrence. -/

structure RawItem where
  title : String
  desc : String
  company : String
  link : String
  guid : String
  pubDate : String
  deriving Repr, DecidableEq

def initItem (now : String) : RawItem := ⟨"", "", "", "", "", now⟩

def applyClose (it : RawItem) (tag text : String) : RawItem :=
  if jsToLower tag = "title" then { it with title := jsTrim text }
  else if jsToLower tag = "description" then { it with desc := jsTrim text }
  else if jsToLower tag = "company" then { it with company := jsTrim text }
  else if jsToLower tag = "url" ∨ jsToLower tag = "link" then
    { it with link := jsTrim text }
  else if jsToLower tag = "guid" ∨ jsToLower tag = "referencenumber" then
    (if it.guid = "" then { it with guid := jsTrim text } else it)
  else if jsToLower tag = "pubdate" ∨ jsToLower tag = "date_updated" then
    { it with pubDate := jsTrim text }
  else it

/-- The record produced for a list of (child tag, child text) pairs. -/
def buildItem (now : String) (children : List (String × String)) : RawItem :=
  children.foldl (fun it p => applyClose it p.1 p.2) (initItem now)

def isLinkTag (tag : String) : Prop :=
  jsToLower tag = "url" ∨ jsToLower tag = "link"

instance : DecidablePred isLinkTag := fun t => by unfold isLinkTag; infer_instance

def isGuidTag (tag : String) : Prop :=
  jsToLower tag = "guid" ∨ jsToLower tag = "referencenumber"

instance : DecidablePred isGuidTag := fun t => by unfold isGuidTag; infer_instance

/-- Trimmed texts of the url/link children, in document order. -/
def linkTexts (children : List (String × String)) : List String :=
  (children.filter (fun p => decide (isLinkTag p.1))).map (fun p => jsTrim p.2)

/-- Non-empty trimmed texts of the guid/referencenumber children. -/
def guidTexts (children : List (String × String)) : List String :=
  (((children.filter (fun p => decide (isGuidTag p.1))).map
      (fun p => jsTrim p.2)).filter (fun s => s ≠ ""))

theorem applyClose_link (it : RawItem) (tag text : String) :
    (applyClose it tag text).link =
      if isLinkTag tag then jsTrim text else it.link := by
  by_cases hL : isLinkTag tag
  · rw [if_pos hL]
    have h : jsToLower tag = "url" ∨ jsToLower tag = "link" := hL
    unfold applyClose
    rcases h with h | h <;> rw [h] <;> simp
  · rw [if_neg hL]
    have h : ¬(jsToLower tag = "url" ∨ jsToLower tag = "link") := hL
    unfold applyClose
    by_cases h1 : jsToLower tag = "title"
    · rw [if_pos h1]
    rw [if_neg h1]
    by_cases h2 : jsToLower tag = "description"
    · rw [if_pos h2]
    rw [if_neg h2]
    by_cases h3 : jsToLower tag = "company"
    · rw [if_pos h3]
    rw [if_neg h3, if_neg h]
    by_cases h5 : jsToLower tag = "guid" ∨ jsToLower tag = "referencenumber"
    · rw [if_pos h5]
      split <;> rfl
    rw [if_neg h5]
    by_cases h6 : jsToLower tag = "pubdate" ∨ jsToLower tag = "date_updated"
    · rw [if_pos h6]
    rw [if_neg h6]

theorem applyClose_guid (it : RawItem) (tag text : String) :
    (applyClose it tag text).guid =
      if isGuidTag tag ∧ it.guid = "" then jsTrim text else it.guid := by
  by_cases hG : isGuidTag tag
  · have h : jsToLower tag = "guid" ∨ jsToLower tag = "referencenumber" := hG
    unfold applyClose
    rcases h with h | h <;> rw [h] <;> by_cases hg : it.guid = "" <;>
      simp [hg, hG]
  · rw [if_neg (fun hc => hG hc.1)]
    have h : ¬(jsToLower tag = "guid" ∨ jsToLower tag = "referencenumber") := hG
    unfold applyClose
    by_cases h1 : jsToLower tag = "title"
    · rw [if_pos h1]
    rw [if_neg h1]
    by_cases h2 : jsToLower tag = "description"
    · rw [if_pos h2]
    rw [if_neg h2]
    by_cases h3 : jsToLower tag = "company"
    · rw [if_pos h3]
    rw [if_neg h3]
    by_cases h4 : jsToLower tag = "url" ∨ jsToLower tag = "link"
    · rw [if_pos h4]
    rw [if_neg h4, if_neg h]
    by_cases h6 : jsToLower tag = "pubdate" ∨ jsToLower tag = "date_updated"
    · rw [if_pos h6]
    rw [if_neg h6]

theorem foldl_link (children : List (String × String)) :
    ∀ it : RawItem,
      (children.foldl (fun it p => applyClose it p.1 p.2) it).link =
        (linkTexts children).getLastD it.link := by
  induction children with
  | nil => intro it; rfl
  | cons p t ih =>
      intro it
      rw [List.foldl_cons, ih, applyClose_link]
      by_cases hp : isLinkTag p.1
      · have hlt : linkTexts (p :: t) = jsTrim p.2 :: linkTexts t := by
          simp [linkTexts, List.filter_cons, hp]
        rw [if_pos hp, hlt, List.getLastD_cons]
      · have hlt : linkTexts (p :: t) = linkTexts t := by
          simp [linkTexts, List.filter_cons, hp]
        rw [if_neg hp, hlt]

theorem foldl_guid (children : List (String × String)) :
    ∀ it : RawItem,
      (children.foldl (fun it p => applyClose it p.1 p.2) it).guid =
        if it.guid = "" then (guidTexts children).headD "" else it.guid := by
  induction children with
  | nil =>
      intro it
      by_cases h : it.guid = "" <;> simp [guidTexts, h]
  | cons p t ih =>
      intro it
      rw [List.foldl_cons, ih, applyClose_guid]
      by_cases hp : isGuidTag p.1
      · by_cases hg : it.guid = ""
        · have hc : isGuidTag p.1 ∧ it.guid = "" := ⟨hp, hg⟩
          rw [if_pos hc, if_pos hg]
          by_cases htx : jsTrim p.2 = ""
          · have hgt : guidTexts (p :: t) = guidTexts t := by
              simp [guidTexts, List.filter_cons, hp, htx]
            rw [hgt, if_pos htx]
          · have hgt : guidTexts (p :: t) = jsTrim p.2 :: guidTexts t := by
              simp [guidTexts, List.filter_cons, hp, htx]
            rw [hgt, if_neg htx, List.headD_cons]
        · have hc : ¬(isGuidTag p.1 ∧ it.guid = "") := fun hh => hg hh.2
          rw [if_neg hc, if_neg hg, if_neg hg]
      · have hc : ¬(isGuidTag p.1 ∧ it.guid = "") := fun hh => hp hh.1
        have hgt : guidTexts (p :: t) = guidTexts t := by
          simp [guidTexts, List.filter_cons, hp]
        rw [if_neg hc, hgt]

/-- Counterexample to C7 as stated: a record with two link children whose
texts are a then b ends up with link b — the last occurrence wins, not the
first. -/
theorem recordLink_claim_cex :
    (buildItem "" [("link", "a"), ("link", "b")]).link = "b"
    ∧ (buildItem "" [("link", "a"), ("link", "b")]).link ≠ "a" := by
  constructor
  · decide
  · decide

/-- C7 (amended): when a record element contains multiple url/link children,
the last one encountered becomes the record's link (each occurrence
overwrites the previous one); among guid/referencenumber children the first
non-empty one still becomes the identity, as the claim states. -/
theorem recordFields_amended (now : String) (children : List (String × String)) :
    (buildItem now children).link = (linkTexts children).getLastD ""
    ∧ (buildItem now children).guid = (guidTexts children).headD "" := by
  constructor
  · rw [buildItem, foldl_link]; rfl
  · rw [buildItem, foldl_guid]; rfl

/-! ## Synthesized placeholder identity (src/app.js lines 601-617)

When a closed record has neither a guid nor a link, the pipeline uses the
template string job-processed, where processed is the 1-based ordinal of
the record among all job/item elements seen so far in the feed.
`natDecimal` models the decimal rendering of that counter. -/

def digitChar (d : Nat) : Char :=
  match d with
  | 0 => '0' | 1 => '1' | 2 => '2' | 3 => '3' | 4 => '4'
  | 5 => '5' | 6 => '6' | 7 => '7' | 8 => '8' | 9 => '9'
  | _ => '*'

def decDigits (n : Nat) : List Char :=
  if h : n < 10 then [digitChar n]
  else decDigits (n / 10) ++ [digitChar (n % 10)]
termination_by n
decreasing_by exact Nat.div_lt_self (by omega) (by omega)

def natDecimal (n : Nat) : String := String.mk (decDigits n)

def dval (c : Char) : Nat :=
  match c with
  | '0' => 0 | '1' => 1 | '2' => 2 | '3' => 3 | '4' => 4
  | '5' => 5 | '6' => 6 | '7' => 7 | '8' => 8 | '9' => 9
  | _ => 10

def decVal (l : List Char) : Nat := l.foldl (fun a c => 10 * a + dval c) 0

theorem dval_digitChar (d : Nat) (h : d < 10) : dval (digitChar d) = d := by
  interval_cases d <;> rfl

theorem decVal_append_one (l : List Char) (c : Char) :
    decVal (l ++ [c]) = 10 * decVal l + dval c := by
  rw [decVal, List.foldl_append]
  rfl

theorem decVal_decDigits (n : Nat) : decVal (decDigits n) = n := by
  induction n using Nat.strong_induction_on with
  | _ n ih =>
      by_cases h : n < 10
      · rw [decDigits, dif_pos h]
        show 10 * 0 + dval (digitChar n) = n
        rw [dval_digitChar n h]
        omega
      · rw [decDigits, dif_neg h, decVal_append_one,
            ih (n / 10) (Nat.div_lt_self (by omega) (by omega)),
            dval_digitChar _ (Nat.mod_lt _ (by omega))]
        omega

theorem natDecimal_inj {m n : Nat} (h : natDecimal m = natDecimal n) : m = n := by
  have hd : decDigits m = decDigits n := congrArg String.data h
  have := congrArg decVal hd
  rwa [decVal_decDigits, decVal_decDigits] at this

/-- The identity chosen for a finished record (src/app.js line 607):
the guid if non-empty, else the link if non-empty, else the placeholder. -/
def recordGuid (it : RawItem) (processed : Nat) : String :=
  if it.guid ≠ "" then it.guid
  else if it.link ≠ "" then it.link
  else "job-" ++ natDecimal processed

/-- The dedup probe (src/app.js line 608, stmtHasGuid): is this identity
already stored? -/
def hasGuid (g : String) (store : List String) : Bool := decide (g ∈ store)

/-- C10: a record with empty guid and empty link gets the placeholder
identity job-position built from its ordinal position among the feed's
records; two different positions give different identities, so the same
guid-less, link-less record seen at another position in a later feed is not
matched by the dedup probe against its earlier copy. -/
theorem placeholder_identity (it : RawItem) (p1 p2 : Nat)
    (hg : it.guid = "") (hl : it.link = "") (hne : p1 ≠ p2) :
    recordGuid it p1 = "job-" ++ natDecimal p1
    ∧ recordGuid it p1 ≠ recordGuid it p2
    ∧ hasGuid (recordGuid it p2) [recordGuid it p1] = false := by
  have h1 : recordGuid it p1 = "job-" ++ natDecimal p1 := by
    rw [recordGuid, if_neg (by simp [hg]), if_neg (by simp [hl])]
  have h2 : recordGuid it p2 = "job-" ++ natDecimal p2 := by
    rw [recordGuid, if_neg (by simp [hg]), if_neg (by simp [hl])]
  have hne2 : recordGuid it p1 ≠ recordGuid it p2 := by
    rw [h1, h2]
    intro hcontra
    apply hne
    apply natDecimal_inj
    apply String.ext
    have := congrArg String.data hcontra
    rw [String.data_append, String.data_append] at this
    exact List.append_cancel_left this
  refine ⟨h1, hne2, ?_⟩
  rw [hasGuid]
  simp only [List.mem_singleton, decide_eq_false_iff_not]
  exact fun hc => hne2 hc.symm

/-- Witness for C10 at concrete inputs: positions 3 and 5 of an empty
record give identities job-3 and job-5 and the dedup probe misses. -/
theorem placeholder_identity_witness :
    recordGuid (initItem "") 3 = "job-" ++ natDecimal 3
    ∧ recordGuid (initItem "") 3 ≠ recordGuid (initItem "") 5
    ∧ hasGuid (recordGuid (initItem "") 5) [recordGuid (initItem "") 3] = false :=
  placeholder_identity (initItem "") 3 5 rfl rfl (by decide)

/-! ## Pipeline orchestrator guard (src/app.js lines 525-537 and 703-709)

The run body (fetch, parse, enrich, persist, prune) is abstracted as a
state transformer returning the updated store and, optionally, the thrown
error message; the guard logic around it is modelled verbatim: an early
no-op return while the flag is set, an early return when no feed URL is
configured, and a try/catch/finally that re-raises the error and always
clears the flag. -/

inductive RunOutcome where
  | busyNoop
  | noFeedUrl
  | completed
  | failed (e : String)
  deriving Repr, DecidableEq

structure RunReport (σ : Type) where
  runningAfter : Bool
  bodyRan : Bool
  store : σ
  outcome : RunOutcome

def processFeedGuard {σ : Type} (running : Bool) (feedUrl : String) (store : σ)
    (body : σ → σ × Option String) : RunReport σ :=
  if running then ⟨running, false, store, .busyNoop⟩
  else if feedUrl = "" then ⟨false, false, store, .noFeedUrl⟩
  else
    match body store with
    | (s, none) => ⟨false, true, s, .completed⟩
    | (s, some e) => ⟨false, true, s, .failed e⟩

/-- C8: the orchestrator is single-flight: invoked while RUNNING it is a
pure no-op — the body never starts, the store is untouched and the outcome
is neither a queued run nor an error — and after any actual run (body
succeeding or throwing) the RUNNING flag is false again. -/
theorem singleFlight_spec {σ : Type} (feedUrl : String) (store : σ)
    (body : σ → σ × Option String) :
    processFeedGuard true feedUrl store body
      = ⟨true, false, store, RunOutcome.busyNoop⟩
    ∧ (processFeedGuard false feedUrl store body).runningAfter = false := by
  constructor
  · rw [processFeedGuard, if_pos rfl]
  · rw [processFeedGuard, if_neg (by simp)]
    by_cases h : feedUrl = ""
    · rw [if_pos h]
    · rw [if_neg h]
      rcases hb : body store with ⟨s, e⟩
      cases e <;> rfl

/-! ## Feed stream + promise wiring (src/app.js lines 570-688)

The SAX stream produces an event sequence: closed records and possibly a
parse error.  The run awaits a promise that is resolved by the end handler
(which is where the accumulated batch is enriched and persisted, lines
640-684) and rejected by the second error handler registered at line 686 —
in addition to the logging error handler at lines 633-635.  Handlers run in
registration order, so a parse error first logs and then settles the
promise by rejection; the end-handler processing of the batch then never
runs inside the awaited promise, and processFeed re-raises the error.
`runFeedEvents` replays an event sequence under exactly those settling
rules: the ok payload is the batch the run goes on to process, available
only if the stream ended without a parse error. -/

inductive FeedEvt (α : Type) where
  | record (r : α)
  | parseErr (msg : String)

structure StreamResult (α : Type) where
  logs : List String
  outcome : Except String (List α)

def runFeedGo {α : Type} (batch : List α) (logs : List String) :
    List (FeedEvt α) → StreamResult α
  | [] => ⟨logs, .ok batch⟩
  | .record r :: t => runFeedGo (batch ++ [r]) logs t
  | .parseErr m :: _ => ⟨logs ++ ["Erreur SAX : " ++ m], .error m⟩

def runFeedEvents {α : Type} (events : List (FeedEvt α)) : StreamResult α :=
  runFeedGo [] [] events

theorem runFeedGo_err {α : Type} (rs : List α) (e : String) (t : List (FeedEvt α)) :
    ∀ (batch : List α) (logs : List String),
      runFeedGo batch logs ((rs.map FeedEvt.record) ++ FeedEvt.parseErr e :: t)
        = ⟨logs ++ ["Erreur SAX : " ++ e], Except.error e⟩ := by
  induction rs with
  | nil => intro batch logs; rfl
  | cons r rs ih => intro batch logs; exact ih (batch ++ [r]) logs

theorem runFeedGo_ok {α : Type} (rs : List α) :
    ∀ (batch : List α) (logs : List String),
      runFeedGo batch logs (rs.map FeedEvt.record)
        = ⟨logs, Except.ok (batch ++ rs)⟩ := by
  induction rs with
  | nil => intro batch logs; simp [runFeedGo]
  | cons r rs ih =>
      intro batch logs
      show runFeedGo (batch ++ [r]) logs (rs.map FeedEvt.record) = _
      rw [ih (batch ++ [r]) logs]
      simp

/-- Counterexample to C2 as stated: a feed stream that yields one record
and then a malformed-XML parse error.  The error is logged, but the promise
is rejected (the second error handler, line 686), so the run outcome is the
error: the run aborts and the record parsed before the failure is not
enriched or persisted by the run (the ok payload never materializes). -/
theorem parseAbort_claim_cex :
    runFeedEvents [FeedEvt.record (1 : Nat), FeedEvt.parseErr "bad"]
      = ⟨["Erreur SAX : bad"], Except.error "bad"⟩ := rfl

/-- C2 (amended): a malformed-XML parse error is logged, but it also
rejects the awaited stream promise, so the run aborts with that error and
the records parsed before the failure are not processed or persisted within
that run; only a stream that ends without a parse error delivers its
accumulated records for processing. -/
theorem parseAbort_amended {α : Type} (rs : List α) (e : String)
    (t : List (FeedEvt α)) :
    runFeedEvents ((rs.map FeedEvt.record) ++ FeedEvt.parseErr e :: t)
      = ⟨["Erreur SAX : " ++ e], Except.error e⟩
    ∧ runFeedEvents (rs.map FeedEvt.record) = ⟨[], Except.ok rs⟩ := by
  constructor
  · rw [runFeedEvents, runFeedGo_err]
    simp
  · rw [runFeedEvents, runFeedGo_ok]
    simp

/-! ## Semantic extractor: salary facts (src/app.js lines 289-328 and 343-349)

`parseMeta` lowercases the concatenation of the plain-text description and
the title and then runs a fixed set of regular expressions over it.  The
embedding implements exactly those patterns over `List Char`:
word-boundary alternations for the unit and currency words, the leftmost
currency token (alternation order, then the euro/dollar/pound symbol
class), and a backtracking-faithful matcher for the two-number range
pattern digits 1-2, optional . or , , digits 3-6 separated by one of
- – — à, plus the single-bound pattern.  JavaScript regex \w (ASCII) and
\s are modelled by `isWordChar` and `isWS`. -/

def isWordChar (c : Char) : Bool :=
  decide (('a' ≤ c ∧ c ≤ 'z') ∨ ('A' ≤ c ∧ c ≤ 'Z') ∨ ('0' ≤ c ∧ c ≤ '9') ∨ c = '_')

/-- Does `needle` occur at position `i` of `l` with a word boundary on both
sides (the needle's first and last characters are word characters for every
pattern used here)? -/
def wordAt (l needle : List Char) (i : Nat) : Bool :=
  needle.isPrefixOf (l.drop i)
  && (decide (i = 0) || !isWordChar (l.getD (i - 1) ' '))
  && !isWordChar (l.getD (i + needle.length) ' ')

def containsWord (text w : String) : Bool :=
  (List.range (text.data.length + 1)).any (fun i => wordAt text.data w.data i)

def testWordAny (ws : List String) (text : String) : Bool :=
  ws.any (fun w => containsWord text w)

/-- Unit priority chain of src/app.js lines 301-306; the final explicit
hour test assigns the same value as the initial default, so it is collapsed
into the default branch. -/
def salaryUnit (text : String) : String :=
  if testWordAny ["an", "année", "annuel", "par an", "year", "annually", "per year"] text
    then "YEAR"
  else if testWordAny ["mois", "mensuel", "par mois", "month", "monthly", "per month"] text
    then "MONTH"
  else if testWordAny ["semaine", "hebdo", "par semaine", "week", "weekly", "per week"] text
    then "WEEK"
  else if testWordAny ["jour", "journalier", "par jour", "day", "daily", "per day"] text
    then "DAY"
  else "HOUR"

/-- The alternative that matches at position `i` (alternation order of the
currency regex: the five word tokens, then the symbol class). -/
def currencyAt (l : List Char) (i : Nat) : Option String :=
  if wordAt l ("eur".data) i then some "eur"
  else if wordAt l ("euro".data) i then some "euro"
  else if wordAt l ("usd".data) i then some "usd"
  else if wordAt l ("chf".data) i then some "chf"
  else if wordAt l ("gbp".data) i then some "gbp"
  else if decide (l.getD i ' ' = '€') && decide (i < l.length) then some "€"
  else if decide (l.getD i ' ' = '$') && decide (i < l.length) then some "$"
  else if decide (l.getD i ' ' = '£') && decide (i < l.length) then some "£"
  else none

/-- Leftmost currency token of the text. -/
def firstCurrencyToken (l : List Char) : Option String :=
  (List.range (l.length + 1)).findSome? (fun i => currencyAt l i)

/-- The toUpperCase-then-classify mapping of src/app.js lines 312-316,
expressed on the lowercase tokens the scan produces. -/
def mapCur (tok : String) : Option String :=
  if tok = "€" ∨ tok = "eur" ∨ tok = "euro" then some "EUR"
  else if tok = "$" ∨ tok = "usd" then some "USD"
  else if tok = "£" ∨ tok = "gbp" then some "GBP"
  else if tok = "chf" then some "CHF"
  else none

def currencyOf (text : String) : Option String :=
  (firstCurrencyToken text.data).bind mapCur

def digitsAt (l : List Char) (i k : Nat) : Bool :=
  decide (((l.drop i).take k).length = k) && ((l.drop i).take k).all Char.isDigit

/-- The 16 quantifier choices of digits 1-2, optional separator,
digits 3-6, in regex backtracking preference order (each quantifier
greedy). -/
def numCombos : List (Nat × Bool × Nat) :=
  [(2, true, 6), (2, true, 5), (2, true, 4), (2, true, 3),
   (2, false, 6), (2, false, 5), (2, false, 4), (2, false, 3),
   (1, true, 6), (1, true, 5), (1, true, 4), (1, true, 3),
   (1, false, 6), (1, false, 5), (1, false, 4), (1, false, 3)]

/-- All matches of the number pattern at position `i`, as
(matched characters, end position), in backtracking preference order. -/
def numAlts (l : List Char) (i : Nat) : List (List Char × Nat) :=
  numCombos.filterMap fun abc =>
    let a := abc.1
    let sep := abc.2.1
    let b := abc.2.2
    let j := i + a
    let j2 := if sep then j + 1 else j
    if digitsAt l i a
        && (!sep || decide (l.getD j ' ' = '.') || decide (l.getD j ' ' = ','))
        && digitsAt l j2 b
    then some ((l.drop i).take a ++ (if sep then [l.getD j ' '] else [])
                ++ (l.drop j2).take b, j2 + b)
    else none

/-- End position after the greedy whitespace run starting at `i`. -/
def skipWs (l : List Char) (i : Nat) : Nat :=
  i + ((l.drop i).takeWhile isWS).length

def sepChar (c : Char) : Bool :=
  decide (c = '-' ∨ c = '–' ∨ c = '—' ∨ c = 'à')

/-- The range pattern match rooted at position `i`: first number,
whitespace, one separator character, whitespace, second number; whitespace
before a non-whitespace atom is deterministic, so only the numbers
backtrack. -/
def rangeAt (l : List Char) (i : Nat) : Option (List Char × List Char) :=
  (numAlts l i).findSome? fun g1 =>
    let j2 := skipWs l g1.2
    if decide (j2 < l.length) && sepChar (l.getD j2 ' ') then
      let j3 := skipWs l (j2 + 1)
      (numAlts l j3).findSome? fun g2 => some (g1.1, g2.1)
    else none

/-- Leftmost match of the two-number range pattern. -/
def rangeMatch (l : List Char) : Option (List Char × List Char) :=
  (List.range (l.length + 1)).findSome? (fun i => rangeAt l i)

def strAtB (l needle : List Char) (i : Nat) : Bool :=
  needle.isPrefixOf (l.drop i)

/-- The suffix alternation of the single-bound pattern: a plus sign,
jusqu with an optional apostrophe then à, or bis. -/
def plusJusquBis (l : List Char) (j : Nat) : Bool :=
  strAtB l ['+'] j
  || (strAtB l ("jusqu".data) j
      && (strAtB l ['à'] (j + 5)
          || (decide (l.getD (j + 5) ' ' = Char.ofNat 39) && strAtB l ['à'] (j + 6))))
  || strAtB l ("bis".data) j

/-- The single-bound pattern at position `i`: either a from-phrase then a
number (group 1), or a number then an up-to-phrase (group 2); branch A is
tried before branch B, prefixes in alternation order. -/
def singleAt (l : List Char) (i : Nat) : Option (List Char) :=
  match (["à partir de", "dès", "from", "de", "von"].findSome? fun pre =>
    if strAtB l pre.data i then
      let j := skipWs l (i + pre.data.length)
      (numAlts l j).findSome? (fun g => some g.1)
    else none) with
  | some g => some g
  | none =>
      (numAlts l i).findSome? fun g =>
        if plusJusquBis l (skipWs l g.2) then some g.1 else none

/-- Leftmost match of the single-bound pattern. -/
def singleMatch (l : List Char) : Option (List Char) :=
  (List.range (l.length + 1)).findSome? (fun i => singleAt l i)

/-- Number(g.replace(separators, empty)): the decimal value of the digits
of the matched group. -/
def digitsVal (g : List Char) : Nat := decVal (g.filter Char.isDigit)

structure Salary where
  currency : String
  min : Option Nat
  max : Option Nat
  unit : String
  deriving Repr, DecidableEq

/-- JavaScript truthiness of the parsed amounts (null and 0 are falsy). -/
def truthyNum : Option Nat → Bool
  | none => false
  | some n => decide (n ≠ 0)

/-- min and max as assigned by src/app.js lines 318-328: the range match
sets both, else a single-bound match sets only min. -/
def salaryAmounts (l : List Char) : Option Nat × Option Nat :=
  match rangeMatch l with
  | some (g1, g2) => (some (digitsVal g1), some (digitsVal g2))
  | none =>
      match singleMatch l with
      | some g => (some (digitsVal g), none)
      | none => (none, none)

/-- The salary fact of parseMeta (src/app.js lines 289-349), taking the
plain-text rendering of the description (the html-to-text convert output)
and the title. -/
def parseMetaSalary (convOut title : String) : Option Salary :=
  let text := jsToLower (convOut ++ " " ++ title)
  match currencyOf text with
  | some c =>
      if truthyNum (salaryAmounts text.data).1
          || truthyNum (salaryAmounts text.data).2 then
        some ⟨c, (salaryAmounts text.data).1, (salaryAmounts text.data).2,
          salaryUnit text⟩
      else none
  | none => none

theorem truthyNum_isSome {o : Option Nat} (h : truthyNum o = true) : o.isSome := by
  cases o with
  | none => simp [truthyNum] at h
  | some n => rfl

/-- C6: a salary fact is emitted only when a currency token was found and
at least one of min/max was parsed; and on the text
Salaire de 28000 à 35000 € par an the extractor emits exactly
currency EUR, min 28000, max 35000, unit YEAR. -/
theorem salary_spec :
    (∀ (d t : String) (s : Salary), parseMetaSalary d t = some s →
       (currencyOf (jsToLower (d ++ " " ++ t))).isSome
       ∧ (s.min.isSome ∨ s.max.isSome))
    ∧ parseMetaSalary "Salaire de 28000 à 35000 € par an" ""
        = some ⟨"EUR", some 28000, some 35000, "YEAR"⟩ := by
  constructor
  · intro d t s h
    simp only [parseMetaSalary] at h
    split at h
    · rename_i c hc
      constructor
      · rw [hc]; rfl
      · split at h
        · rename_i htr
          rcases Bool.or_eq_true_iff.mp htr with h1 | h1
          · have := truthyNum_isSome h1
            injection h with h2
            rw [← h2]
            exact Or.inl this
          · have := truthyNum_isSome h1
            injection h with h2
            rw [← h2]
            exact Or.inr this
        · exact absurd h (by simp)
    · exact absurd h (by simp)
  · decide

/-- Witness for C6: the quantified only-when clause applied to the concrete
scenario text, with its hypothesis discharged by the scenario equation. -/
theorem salary_spec_witness :
    (currencyOf (jsToLower ("Salaire de 28000 à 35000 € par an" ++ " " ++ ""))).isSome
    ∧ ((Salary.mk "EUR" (some 28000) (some 35000) "YEAR").min.isSome
       ∨ (Salary.mk "EUR" (some 28000) (some 35000) "YEAR").max.isSome) :=
  salary_spec.1 "Salaire de 28000 à 35000 € par an" ""
    ⟨"EUR", some 28000, some 35000, "YEAR"⟩ salary_spec.2

/-! ## Enrichment engine (src/app.js lines 196-226, 240-244, 271-286, 396-508)

External dependencies are abstracted as fields of `StrFns`:
  - `convDesc` / `conv120` are the two html-to-text `convert` configurations
    the engine uses (an external library);
  - `jsonArr` is JSON.parse restricted to the case in which it yields an
    array of strings (a language built-in).  A payload whose tags block
    parses to a JSON non-array is not modelled (in the source it raises a
    TypeError in the for-of of uniqNormTags and falls back); the theorems
    below therefore only quantify over payloads with no tags delimiter;
  - `sanitize` / `stripDoc` stand for the regex-replace chains
    sanitizeHtml (lines 217-226) and stripDocumentTags (lines 228-238);
    no claim depends on their content, only on both enrichment paths
    applying the same functions, so they are kept opaque.
All other helpers (escapeHtml, truncateWords, the keyword tag extractor,
the output-contract block extraction) are implemented from the source. -/

structure StrFns where
  convDesc : String → String
  conv120 : String → String
  jsonArr : String → Option (List String)
  sanitize : String → String
  stripDoc : String → String

structure Config where
  hasOpenAI : Bool
  targetProfession : String

def escChar (c : Char) : List Char :=
  if c = '&' then ("&amp;".data)
  else if c = '<' then ("&lt;".data)
  else if c = '>' then ("&gt;".data)
  else if c = '"' then ("&quot;".data)
  else if c = Char.ofNat 39 then ("&#39;".data)
  else [c]

def escapeHtml (s : String) : String := String.mk ((s.data.map escChar).flatten)

/-- JS split on a character-class run (the split(regex-plus) semantics,
with its empty leading/trailing fields). -/
def splitRunsGo (p : Char → Bool) (cur : List Char) : List Char → List (List Char)
  | [] => [cur.reverse]
  | c :: t =>
      if p c then cur.reverse :: splitRunsGo p [] (t.dropWhile p)
      else splitRunsGo p (c :: cur) t
termination_by l => l.length
decreasing_by
  · have := (List.dropWhile_sublist (l := t) p).length_le
    simp only [List.length_cons]
    omega
  · simp [Nat.lt_succ_self]

def jsSplitWs (s : String) : List String := (splitRunsGo isWS [] s.data).map String.mk

def jsSplitNl (s : String) : List String :=
  (splitRunsGo (fun c => decide (c = '\n')) [] s.data).map String.mk

def truncateWords (txt : String) (n : Nat) : String :=
  let words := jsSplitWs txt
  if words.length ≤ n then txt
  else String.intercalate " " (words.take n) ++ "…"

def containsChars (hay needle : List Char) : Bool :=
  (List.range (hay.length + 1)).any (fun i => needle.isPrefixOf (hay.drop i))

def containsStr (hay needle : String) : Bool := containsChars hay.data needle.data

/-- The pattern pre[-\s]?post (used for full-time / part-time phrasing). -/
def containsOptSepPat (hay pre post : List Char) : Bool :=
  (List.range (hay.length + 1)).any fun i =>
    strAtB hay pre i
    && (strAtB hay post (i + pre.length)
        || ((decide (hay.getD (i + pre.length) 'x' = '-')
              || isWS (hay.getD (i + pre.length) 'x'))
            && strAtB hay post (i + pre.length + 1)))

/-- PROFESSION_TAGS of src/app.js lines 258-269 (the permIs c typo is the
source's own). -/
def conducteurTags : List String :=
  ["permis ce", "permis c", "spl", "poids lourd", "super poids lourd",
   "fimo", "fco", "adr", "matières dangereuses", "tachygraphe",
   "semi-remorque", "remorque", "solo", "plateau", "citerne", "bâché",
   "frigorifique", "distribution", "navettes", "régional", "national",
   "international", "travail de nuit", "week-end", "rotation",
   "planification de tournée"]

def professionTagsFor (profKey : String) : List String :=
  if profKey = "conducteur routier" then conducteurTags
  else if profKey = "truck driver" then
    ["class 1", "class a", "cdl", "long haul", "regional", "local",
     "tanker", "flatbed", "otr", "hazmat"]
  else if profKey = "chauffeur poids lourd" then
    ["pl", "spl", "permIs c", "permis ce", "fimo", "fco"]
  else if profKey = "warehouse" then
    ["chariot", "cariste", "préparateur", "expédition", "réception",
     "inventaire"]
  else conducteurTags

/-- The keyword tag extractor (src/app.js lines 271-286). -/
def extractTags (fns : StrFns) (cfg : Config) (title company html : String) :
    List String :=
  let text := jsToLower (title ++ " " ++ company ++ " "
    ++ (fns.conv120 html).take 1000)
  let found := (professionTagsFor (jsToLower cfg.targetProfession)).filter
    (fun tg => containsStr text tg)
  let found := found ++
    (if containsStr text "télétravail" || containsStr text "remote"
        || containsStr text "travail à distance" then ["télétravail"] else [])
  let found := found ++
    (if containsStr text "temps plein"
        || containsOptSepPat text.data ("full".data) ("time".data)
        || containsStr text "plein temps" then ["temps plein"] else [])
  let found := found ++
    (if containsStr text "temps partiel"
        || containsOptSepPat text.data ("part".data) ("time".data)
        || containsStr text "mi-temps" then ["temps partiel"] else [])
  let found := found ++
    (if containsStr text "cdi" || containsStr text "permanent"
      then ["cdi"] else [])
  let found := found ++
    (if containsStr text "cdd" || containsStr text "intérim"
        || containsStr text "interim" || containsStr text "contrat"
        || containsStr text "temporaire" then ["contrat"] else [])
  let found := found ++ [jsToLower cfg.targetProfession]
  uniqNormTags found

/-- First index at which `needle` occurs in `hay`. -/
def findSubIdx (hay needle : List Char) : Option Nat :=
  (List.range (hay.length + 1)).find? (fun i => needle.isPrefixOf (hay.drop i))

/-- Case-insensitive delimiter search (the block regexes carry the i flag). -/
def findDelim (hay : List Char) (needle : String) : Option Nat :=
  findSubIdx (hay.map lowerChar) (needle.data.map lowerChar)

/-- The capture of delimiter1 lazy-anything delimiter2 (whose edge
whitespace the caller trims, as the source does on top of the regex). -/
def extractBetween (out d1 d2 : String) : Option String :=
  match findDelim out.data d1 with
  | none => none
  | some i =>
      let rest := out.data.drop (i + d1.data.length)
      match findDelim rest d2 with
      | none => none
      | some j => some (String.mk (rest.take j))

def extractAfter (out d : String) : Option String :=
  match findDelim out.data d with
  | none => none
  | some i => some (String.mk (out.data.drop (i + d.data.length)))

def lastIdx (l : List Char) (c : Char) : Option Nat :=
  (List.range l.length).reverse.find? (fun j => decide (l.getD j ' ' = c))

/-- The greedy bracket-to-bracket capture applied to the tags block tail:
from the first opening bracket to the last closing bracket after it. -/
def bracketSpan (s : String) : Option String :=
  match lastIdx s.data ']' with
  | none => none
  | some j =>
      match findSubIdx (s.data.take j) ['['] with
      | none => none
      | some i => some (String.mk ((s.data.drop i).take (j + 1 - i)))

structure EnrichOut where
  short : String
  html : String
  tags : List String
  usedAI : Bool
  deriving Repr, DecidableEq

/-- The seven-section deterministic body template (src/app.js lines
404-412), trimmed as in the source. -/
def fallbackHTML (paragraphs : String) : String :=
  jsTrim ("\n<section><h2>À propos du poste</h2>"
    ++ (if paragraphs = "" then "<p>Détails fournis par l’employeur.</p>"
        else paragraphs)
    ++ "</section>\n<section><h2>Responsabilités</h2><ul><li>Réaliser les missions décrites.</li></ul></section>\n<section><h2>Profil recherché</h2><ul><li>Expérience pertinente ou motivation à apprendre.</li></ul></section>\n<section><h2>Avantages</h2><ul><li>Avantages selon la description.</li></ul></section>\n<section><h2>Rémunération</h2><p>À discuter.</p></section>\n<section><h2>Lieu & Horaires</h2><p>Selon la description.</p></section>\n<section><h2>Candidater</h2><p>Utilisez le bouton “Postuler”.</p></section>\n")

/-- The deterministic fallback path of rewriteJobRich (src/app.js lines
402-420): closure over the plain-text rendering computed at entry. -/
def enrichFallback (fns : StrFns) (cfg : Config) (title company html : String) :
    EnrichOut :=
  let plain := (fns.convDesc html).take 9000
  let paragraphs := String.intercalate "\n"
    ((((jsSplitNl plain).filter (fun p => p ≠ "")).take 6).map
      (fun p => "<p>" ++ escapeHtml p ++ "</p>"))
  { short := truncateWords plain 45,
    html := fns.sanitize (fallbackHTML paragraphs),
    tags := extractTags fns cfg title company html,
    usedAI := false }

/-- The single-section salvage body used when the HTML block is missing or
shorter than 50 characters (src/app.js lines 488 and 492). -/
def aiSection (short : String) : String :=
  "<section><h2>À propos du poste</h2><p>" ++ escapeHtml short ++ "</p></section>"

/-- rewriteJobRich (src/app.js lines 396-508).  `aiResp` is the outcome of
the backend call: an exception or the completion text.  The openai handle
is null exactly when HAS_OPENAI is false, so the entry guard collapses to
hasOpenAI and useAI. -/
def rewriteJobRich (fns : StrFns) (cfg : Config) (title company html : String)
    (useAI : Bool) (aiResp : Except String String) : EnrichOut :=
  if !(cfg.hasOpenAI && useAI) then enrichFallback fns cfg title company html
  else
    match aiResp with
    | .error _ => enrichFallback fns cfg title company html
    | .ok out =>
        let descM := extractBetween out "===DESCRIPTION===" "===HTML==="
        let htmlM := extractBetween out "===HTML===" "===TAGS==="
        let tagsM := extractAfter out "===TAGS==="
        let short0 := jsTrim (descM.getD "")
        let short1 := if short0 = "" then (fns.conv120 out).take 300 else short0
        let short := (jsTrim (fns.conv120 short1)).take 600
        let html0 := jsTrim (htmlM.getD "")
        let html1 := if html0 = "" then aiSection short else html0
        let html2 := fns.stripDoc html1
        let html3 := if html2.length < 50 then aiSection short else html2
        let tagsParsed : Option (List String) :=
          match tagsM with
          | none => none
          | some tail =>
              match bracketSpan tail with
              | none => none
              | some sp => fns.jsonArr sp
        let tags := uniqNormTags
          (tagsParsed.getD (extractTags fns cfg title company html))
        { short := short, html := fns.sanitize html3, tags := tags,
          usedAI := true }

/-- Identity instantiation of the abstracted external functions, for
concrete evaluation. -/
def idFns : StrFns :=
  { convDesc := id, conv120 := id, jsonArr := fun _ => none,
    sanitize := id, stripDoc := id }

/-- The default configuration of the source (TARGET_PROFESSION defaults to
conducteur routier) with an AI backend configured. -/
def cfgAI : Config := { hasOpenAI := true, targetProfession := "conducteur routier" }

/-- Counterexample to C1 as stated: the payload x carries none of the three
delimited blocks, so it cannot be parsed against the output contract — yet
the enrichment result reports usedAI = true, not the fallback's
usedAI = false. -/
theorem aiDegrade_claim_cex :
    findDelim ("x".data) "===DESCRIPTION===" = none
    ∧ (rewriteJobRich idFns cfgAI "t" "c" "<p>d</p>" true
        (Except.ok "x")).usedAI = true
    ∧ (enrichFallback idFns cfgAI "t" "c" "<p>d</p>").usedAI = false := by
  refine ⟨by decide, rfl, rfl⟩

/-- C1 (amended): when the AI backend raises (and whenever the AI path is
not taken at all), enrich returns exactly the deterministic fallback
result, whose usedAI is false; but a payload that merely fails the
three-block output contract is salvaged block by block and reported with
usedAI = true — it is not re-shaped into the fallback output.  (The third
clause is stated for payloads with no tags delimiter; a present tags block
is handled through JSON.parse, whose non-array successes are outside this
model.) -/
theorem aiDegrade_amended (fns : StrFns) (cfg : Config)
    (title company html : String) (useAI : Bool) (e : String) :
    rewriteJobRich fns cfg title company html useAI (Except.error e)
      = enrichFallback fns cfg title company html
    ∧ (enrichFallback fns cfg title company html).usedAI = false
    ∧ (∀ out : String, cfg.hasOpenAI = true → useAI = true →
        findDelim out.data "===TAGS===" = none →
        (rewriteJobRich fns cfg title company html useAI
          (Except.ok out)).usedAI = true) := by
  refine ⟨?_, rfl, ?_⟩
  · rw [rewriteJobRich]
    cases hb : (cfg.hasOpenAI && useAI) <;> simp
  · intro out h1 h2 _
    rw [rewriteJobRich, h1, h2]
    rfl

/-- Witness for C1 (amended) at a concrete call: backend error degrades to
the fallback, and the unparsable payload x keeps usedAI = true. -/
theorem aiDegrade_amended_witness :
    (rewriteJobRich idFns cfgAI "t" "c" "<p>d</p>" true (Except.error "boom")
        = enrichFallback idFns cfgAI "t" "c" "<p>d</p>")
    ∧ (enrichFallback idFns cfgAI "t" "c" "<p>d</p>").usedAI = false
    ∧ (rewriteJobRich idFns cfgAI "t" "c" "<p>d</p>" true
        (Except.ok "hello")).usedAI = true := by
  have h := aiDegrade_amended idFns cfgAI "t" "c" "<p>d</p>" true "boom"
  exact ⟨h.1, h.2.1, h.2.2 "hello" rfl rfl (by decide)⟩

/-- Witness for C5 at a concrete tag list: the spec equality holds and the
membership clause is discharged for the surviving tag spl. -/
theorem uniqNormTags_spec_witness :
    uniqNormTags ["  SPL ", "spl", "", "Adr"]
      = normalizeSpec ["  SPL ", "spl", "", "Adr"]
    ∧ ("spl" ≠ "" ∧ ∃ t ∈ ["  SPL ", "spl", "", "Adr"], "spl" = normTag t) := by
  have h := uniqNormTags_spec ["  SPL ", "spl", "", "Adr"]
  exact ⟨h.1, h.2.2.2 "spl" (by decide)⟩
